import Mathlib

/-!
Verification of the jet-capture capture engine (Go) against its
natural-language specification, via a shallow embedding in Lean 4.

Modelling conventions:
- Go `time.Time` values become natural-number ticks; `time.Duration` becomes
  a natural number; `t.Truncate(d)` becomes `truncate t d`.
- Go errors become `Option String` (`none` = nil) or a small `GoError` type
  for the sentinel errors `context.Canceled` / `context.DeadlineExceeded`.
- Caller-supplied collaborators (decoder, formatter, store, broker
  connection, buffer syscalls) are opaque to the engine; their outcomes are
  passed in as explicit inputs, exactly at the points where the Go code
  calls them.
- Side-effect ordering (store writes, ack publishes, buffer removal) is
  made observable through explicit event traces emitted by the embedded
  functions, in the order the Go code performs the calls.
-/

set_option linter.unusedSectionVars false

namespace JetCapture

/-- Go time.Time.Truncate on natural-number ticks: rounds down to a
multiple of the duration; for a non-positive duration Go returns the time
unchanged. -/
def truncate (t d : Nat) : Nat :=
  if d = 0 then t else t - t % d

/-- Embeds the engine-visible fields of dataBlock (src/unnamed/part_009).
The payload-typed collaborators (writer, buffer) are modelled separately:
their outcomes are threaded in as explicit inputs. The ULID id field is
modelled as a natural number drawn fresh from a per-engine counter, which
captures exactly the identity role it plays (pointer/ULID uniqueness). -/
structure DataBlock where
  bid : Nat := 0
  start : Nat
  messageCount : Nat := 0
  rowCount : Nat := 0
  closed : Bool := false
  acks : List String := []
  newestMessage : Nat := 0
deriving DecidableEq, Repr

/-- Embeds dataBlock.write: advances newestMessage if the metadata
timestamp is greater, increments messageCount, then consults the formatter
(whose returned pair rows/err is the `res` input); on formatter success the
reply token is appended to acks; `rowCount += rows` happens
unconditionally, exactly as in the Go source. Returns the updated block
and the error returned to the caller. -/
def DataBlock.write (b : DataBlock) (res : Nat × Option String) (ack : String) (ts : Nat) :
    DataBlock × Option String :=
  let b := if ts > b.newestMessage then { b with newestMessage := ts } else b
  let b := { b with messageCount := b.messageCount + 1 }
  let b := match res.2 with
    | none => { b with acks := b.acks ++ [ack] }
    | some _ => b
  let b := { b with rowCount := b.rowCount + res.1 }
  (b, res.2)

/-- Embeds dataBlock.close: sets the closed flag, then calls
buffer.DoneWriting, whose outcome is the `doneWritingErr` input. The flag
is set even when DoneWriting fails. -/
def DataBlock.close (b : DataBlock) (doneWritingErr : Option String) :
    DataBlock × Option String :=
  ({ b with closed := true }, doneWritingErr)

/-- Result of dataBlock.Read: the Go method panics with
"invalid block state" when the block is not yet closed, otherwise it
delegates to the buffer. -/
inductive ReadResult where
  | panicked (msg : String)
  | ok
deriving DecidableEq, Repr

/-- Embeds dataBlock.Read restricted to its control flow: panic when the
closed flag is unset, else read from the buffer. -/
def DataBlock.Read (b : DataBlock) : ReadResult :=
  if !b.closed then ReadResult.panicked "invalid block state" else ReadResult.ok

/-- Model of the broker connection as seen by ackAll: which reply tokens
fail to publish, and the outcome of the final Flush. -/
structure Conn where
  pubErr : String → Bool
  flushErr : Option String

/-- Events emitted on the broker connection by ackAll. -/
inductive AckEv where
  | pub (tok : String)
  | flush
deriving DecidableEq, Repr

/-- The loop body of ackAll over the recorded reply tokens, in list order:
publish each, count the successes, record the publish events. -/
def ackLoop (c : Conn) : List String → Nat × List AckEv
  | [] => (0, [])
  | a :: rest =>
    let n := if c.pubErr a then 0 else 1
    let r := ackLoop c rest
    (n + r.1, AckEv.pub a :: r.2)

/-- Embeds dataBlock.ackAll: iterates over the acks slice in order,
publishing a positive acknowledgement for each token (errors only logged,
successes counted), then flushes the connection; returns the success count
together with the flush result, plus the trace of connection events. -/
def DataBlock.ackAll (b : DataBlock) (c : Conn) : (Nat × Option String) × List AckEv :=
  let r := ackLoop c b.acks
  ((r.1, c.flushErr), r.2 ++ [AckEv.flush])

end JetCapture

namespace JetCapture

/-! Buffer model (src/buffer.go). The wrapped (compressed) buffer
decorates an inner buffer with a streaming encoder. The encoder is
modelled concretely as a buffered streaming compressor: written bytes are
transformed by an opaque `encode` function and buffered; Close flushes the
buffered bytes followed by the trailer into the inner buffer. Bytes are
lists of naturals. -/

/-- Events emitted by the wrapped buffer on its collaborators. -/
inductive BufEv where
  | encWrite (p : List Nat)
  | encClose
  | innerDone
deriving DecidableEq, Repr

/-- The inner buffer as the wrapped writer sees it: accumulated bytes, a
sealed flag (set by a successful DoneWriting: no-op for the memory buffer,
fsync plus seek-to-start for the disk buffer), and the injectable outcome
of its DoneWriting call. -/
structure InnerBuf where
  data : List Nat := []
  done : Bool := false
  doneErr : Option String := none

/-- Inner buffer DoneWriting: fails with the injected error (disk Sync
failure) leaving the buffer unsealed, otherwise seals it. -/
def InnerBuf.doneWriting (b : InnerBuf) : InnerBuf × Option String :=
  match b.doneErr with
  | some e => (b, some e)
  | none => ({ b with done := true }, none)

/-- Streaming encoder state: the byte transformation, the trailer bytes it
emits on Close, the bytes buffered but not yet flushed to the inner
buffer, and the injectable outcome of Close. -/
structure Encoder where
  encode : List Nat → List Nat
  trailer : List Nat
  pending : List Nat := []
  closeErr : Option String := none

/-- Encoder Close against an inner buffer: on success flushes the pending
bytes followed by the trailer into the inner buffer. -/
def Encoder.close (e : Encoder) (b : InnerBuf) : (Encoder × InnerBuf) × Option String :=
  match e.closeErr with
  | some err => ((e, b), some err)
  | none => (({ e with pending := [] }, { b with data := b.data ++ e.pending ++ e.trailer }), none)

/-- Embeds wrappedWriter: an inner buffer plus the wrapping encoder. -/
structure WrappedWriter where
  inner : InnerBuf
  wr : Encoder

/-- Embeds wrappedWriter.Write: the bytes go to the encoder (w.wr.Write),
never directly to the inner buffer. Returns the new state and the trace
of calls made. -/
def WrappedWriter.write (w : WrappedWriter) (p : List Nat) :
    WrappedWriter × List BufEv :=
  ({ w with wr := { w.wr with pending := w.wr.pending ++ w.wr.encode p } },
   [BufEv.encWrite p])

/-- Embeds wrappedWriter.DoneWriting: first closes the encoder; if that
fails, returns the error without touching the inner buffer; otherwise
delegates DoneWriting to the inner buffer. The trace records the call
order. -/
def WrappedWriter.doneWriting (w : WrappedWriter) :
    (WrappedWriter × Option String) × List BufEv :=
  match Encoder.close w.wr w.inner with
  | ((e, b), some err) => (({ inner := b, wr := e }, some err), [BufEv.encClose])
  | ((e, b), none) =>
    let r := InnerBuf.doneWriting b
    (({ inner := r.1, wr := e }, r.2), [BufEv.encClose, BufEv.innerDone])

end JetCapture

namespace JetCapture

/-! Block finalization (Capture.finalizeBlock, src/unnamed/part_004). -/

/-- Events performed by finalizeBlock, in call order. The storeWrite
event records the closed flag of the block at the moment it is handed to
Store.Write. The remove event is the deferred buffer.Remove, which Go runs
last; the deferred OnStoreComplete callback (when configured) runs just
before it. -/
inductive FinEv where
  | closeBlock
  | storeWrite (blockClosed : Bool)
  | ackPub (tok : String)
  | connFlush
  | storeComplete
  | remove
deriving DecidableEq, Repr

/-- Outcomes of the collaborators finalizeBlock calls: the buffer
DoneWriting result (inside block.close), the Store.Write result, the
broker connection behaviour for ackAll, and whether an OnStoreComplete
callback is configured. -/
structure FinalizeEnv where
  doneWritingErr : Option String
  storeErr : Option String
  conn : Conn
  hasOnStoreComplete : Bool

/-- The deferred OnStoreComplete event, present when the callback is
configured. -/
def completeEv (env : FinalizeEnv) : List FinEv :=
  if env.hasOnStoreComplete then [FinEv.storeComplete] else []

/-- Renames an ackAll connection event into a finalizeBlock event. -/
def ackToFin : AckEv → FinEv
  | AckEv.pub tok => FinEv.ackPub tok
  | AckEv.flush => FinEv.connFlush

/-- Embeds Capture.finalizeBlock: close the block (always setting the
closed flag); on close error return it; otherwise hand the closed block to
Store.Write; on store error return it; otherwise ackAll and add the
success count to the acked counter. buffer.Remove is deferred and runs on
every path, after the deferred OnStoreComplete when that is configured.
Returns (returned error, final block state, acks counted), and the trace. -/
def finalizeBlock (env : FinalizeEnv) (b : DataBlock) :
    (Option String × DataBlock × Nat) × List FinEv :=
  let r := b.close env.doneWritingErr
  let b1 := r.1
  match r.2 with
  | some e =>
    ((some e, b1, 0), [FinEv.closeBlock] ++ completeEv env ++ [FinEv.remove])
  | none =>
    match env.storeErr with
    | some e =>
      ((some e, b1, 0),
       [FinEv.closeBlock, FinEv.storeWrite b1.closed] ++ completeEv env ++ [FinEv.remove])
    | none =>
      let a := b1.ackAll env.conn
      match a.1.2 with
      | some e =>
        ((some e, b1, 0),
         [FinEv.closeBlock, FinEv.storeWrite b1.closed] ++ a.2.map ackToFin
           ++ completeEv env ++ [FinEv.remove])
      | none =>
        ((none, b1, a.1.1),
         [FinEv.closeBlock, FinEv.storeWrite b1.closed] ++ a.2.map ackToFin
           ++ completeEv env ++ [FinEv.remove])

/-! Sweeping (Capture.sweepBlocks, src/unnamed/part_004). -/

/-- The per-block maturity condition of sweepBlocks: forceFlush, or the
newest observed message timestamp strictly after start + MaxAge, or
MaxMessages positive and messageCount at least MaxMessages. MaxMessages is
a Go int, kept as an integer. -/
def blockIsMature (maxAge : Nat) (maxMessages : Int) (newestMessage : Nat)
    (forceFlush : Bool) (b : DataBlock) : Bool :=
  forceFlush || decide (newestMessage > b.start + maxAge)
    || (decide (0 < maxMessages) && decide (maxMessages ≤ (b.messageCount : Int)))

/-- The inner loop of sweepBlocks over one destination key's open blocks,
in slice order: mature blocks are finalized (collected in the second
component, in order), the rest are kept (first component, in order). -/
def sweepKey (maxAge : Nat) (maxMessages : Int) (newestMessage : Nat)
    (forceFlush : Bool) : List DataBlock → List DataBlock × List DataBlock
  | [] => ([], [])
  | b :: bs =>
    let r := sweepKey maxAge maxMessages newestMessage forceFlush bs
    if blockIsMature maxAge maxMessages newestMessage forceFlush b then
      (r.1, b :: r.2)
    else
      (b :: r.1, r.2)

/-- Embeds Capture.sweepBlocks: for every destination key, replace its
open-block list by the kept blocks and finalize the mature ones. Returns
the new blocks map and the finalized blocks (tagged with their key).
Finalization side effects are modelled by finalizeBlock; which blocks get
finalized does not depend on them. -/
def sweepBlocks (maxAge : Nat) (maxMessages : Int) (newestMessage : Nat)
    (forceFlush : Bool) (blocks : List (K × List DataBlock)) :
    List (K × List DataBlock) × List (K × DataBlock) :=
  match blocks with
  | [] => ([], [])
  | (dk, v) :: rest =>
    let p := sweepKey maxAge maxMessages newestMessage forceFlush v
    let r := sweepBlocks maxAge maxMessages newestMessage forceFlush rest
    ((dk, p.1) :: r.1, p.2.map (fun b => (dk, b)) ++ r.2)

end JetCapture

namespace JetCapture

/-! Engine state and message routing (Capture.findBlock and Capture.fetch,
src/unnamed/part_004). The Go blocks map is embedded as an association
list from destination keys to open-block lists; map iteration order is
irrelevant to the claims settled here. -/

variable {P K : Type} [DecidableEq K]

/-- Embeds the engine-visible fields of Capture: the blocks map, the
counter seeding fresh block identities (modelling pointer/ULID
freshness), the newest observed broker timestamp, and the fetched/acked
counters. -/
structure EngineState (K : Type) where
  blocks : List (K × List DataBlock) := []
  nextId : Nat := 0
  newestMessage : Nat := 0
  fetched : Nat := 0
  acked : Nat := 0
deriving DecidableEq, Repr

/-- Go map read blocks[dk] after the key has been ensured: the list of the
first entry carrying the key, or the empty list. -/
def getBlocks (blocks : List (K × List DataBlock)) (dk : K) : List DataBlock :=
  match blocks with
  | [] => []
  | (k, v) :: rest => if k = dk then v else getBlocks rest dk

/-- The Go statement inserting an empty slice for a missing key
(blocks[dk] = ...isempty... when the key is absent). -/
def ensureKey (blocks : List (K × List DataBlock)) (dk : K) : List (K × List DataBlock) :=
  match blocks with
  | [] => [(dk, [])]
  | (k, v) :: rest => if k = dk then (k, v) :: rest else (k, v) :: ensureKey rest dk

/-- Go append of a block to the slice held under an existing key. -/
def addBlock (blocks : List (K × List DataBlock)) (dk : K) (b : DataBlock) :
    List (K × List DataBlock) :=
  match blocks with
  | [] => [(dk, [b])]
  | (k, v) :: rest => if k = dk then (k, v ++ [b]) :: rest else (k, v) :: addBlock rest dk b

/-- The linear search of findBlock over one key's open blocks: the first
block whose start equals the truncated timestamp. -/
def findInList (st : Nat) : List DataBlock → Option DataBlock
  | [] => none
  | b :: bs => if b.start = st then some b else findInList st bs

/-- Embeds Capture.findBlock. The timestamp is truncated to MaxAge; the
key's entry is ensured; an existing open block with equal start is reused;
otherwise a buffer is made (outcome injected as bufErr; on failure the
error is returned, the ensured entry remaining) and a fresh block with a
fresh identity, new buffer and new formatter is appended under the key.
Returns the (possibly) updated state and the routed block or the error. -/
def findBlock (maxAge : Nat) (bufErr : Option String) (s : EngineState K)
    (dk : K) (ts : Nat) : EngineState K × Except String DataBlock :=
  match findInList (truncate ts maxAge) (getBlocks (ensureKey s.blocks dk) dk) with
  | some b => ({ s with blocks := ensureKey s.blocks dk }, Except.ok b)
  | none =>
    match bufErr with
    | some e => ({ s with blocks := ensureKey s.blocks dk }, Except.error e)
    | none =>
      ({ s with
          blocks := addBlock (ensureKey s.blocks dk) dk
            { bid := s.nextId, start := truncate ts maxAge },
          nextId := s.nextId + 1 },
       Except.ok { bid := s.nextId, start := truncate ts maxAge })

/-- Go mutation through the block pointer returned by findBlock: rewrite
the block with the given identity under the given key. -/
def updateBlock (blocks : List (K × List DataBlock)) (dk : K) (bid : Nat)
    (f : DataBlock → DataBlock) : List (K × List DataBlock) :=
  match blocks with
  | [] => []
  | (k, v) :: rest =>
    if k = dk then (k, v.map fun b => if b.bid = bid then f b else b) :: rest
    else (k, v) :: updateBlock rest dk bid f

/-- Behaviour of the caller-supplied decoder on one raw message: a decoded
payload and destination key, an error, or a panic carrying the shown
recovered value. -/
inductive DecoderBehavior (P K : Type) where
  | ok (p : P) (dk : K)
  | fail (e : String)
  | panics (v : String)

/-- Embeds Capture.safeDecode: runs the decoder under a recover handler;
a returned error passes through and a panic is converted into an error
prefixed with "panic during decode: ", never propagated. -/
def safeDecode (d : DecoderBehavior P K) : Except String (P × K) :=
  match d with
  | DecoderBehavior.ok p dk => Except.ok (p, dk)
  | DecoderBehavior.fail e => Except.error e
  | DecoderBehavior.panics v => Except.error ("panic during decode: " ++ v)

/-- One delivered raw message together with the outcomes of the opaque
collaborators consulted while processing it: the decoder behaviour, the
buffer-creation outcome (used only if a new block is created for it), and
the formatter Write outcome (rows, error). -/
structure Msg (P K : Type) where
  ts : Nat
  reply : String
  decode : DecoderBehavior P K
  bufErr : Option String := none
  writeRows : Nat := 0
  writeErr : Option String := none

/-- The Go statement advancing the engine's newestMessage when the broker
timestamp of the delivered message is greater. -/
def bumpNewest (s : EngineState K) (ts : Nat) : EngineState K :=
  if ts > s.newestMessage then { s with newestMessage := ts } else s

/-- The per-message body of the fetch loop: advance newestMessage, decode
under recover (on error: log and continue, nothing recorded), route via
findBlock (on error: log and continue), then write into the block through
its pointer (write errors only logged). -/
def fetchStep (maxAge : Nat) (s : EngineState K) (m : Msg P K) : EngineState K :=
  match safeDecode m.decode with
  | Except.error _ => bumpNewest s m.ts
  | Except.ok pk =>
    match findBlock maxAge m.bufErr (bumpNewest s m.ts) pk.2 m.ts with
    | (s1, Except.error _) => s1
    | (s1, Except.ok b) =>
      { s1 with
        blocks := updateBlock s1.blocks pk.2 b.bid
          (fun blk => (blk.write (m.writeRows, m.writeErr) m.reply m.ts).1) }

/-- The message loop of Capture.fetch, in delivery order. -/
def processMsgs (maxAge : Nat) (s : EngineState K) : List (Msg P K) → EngineState K
  | [] => s
  | m :: rest => processMsgs maxAge (fetchStep maxAge s m) rest

/-- Embeds Capture.fetch: the subscription returns a batch and an error;
the fetched counter is advanced by the batch length before the error
check; on subscription error it is returned unprocessed, otherwise every
message is processed in order and nil is returned. -/
def fetchCall (maxAge : Nat) (s : EngineState K) (msgs : List (Msg P K))
    (subErr : Option String) : EngineState K × Option String :=
  let s := { s with fetched := s.fetched + msgs.length }
  match subErr with
  | some e => (s, some e)
  | none => (processMsgs maxAge s msgs, none)

/-- All reply tokens recorded for acknowledgement anywhere in the engine
state. -/
def allAcks (s : EngineState K) : List String :=
  s.blocks.flatMap fun e => e.2.flatMap (fun b => b.acks)

end JetCapture

namespace JetCapture

/-! Run loop control skeleton (Capture.Run, src/unnamed/part_004). The
loop body state evolution is modelled by fetchCall and sweepBlocks above;
here the control flow of the loop and of the deferred cleanup is embedded,
with each iteration driven by the outcomes of the context check, the fetch
call and the consumer-info query, and with the sweep invocations and the
cleanup steps recorded as events. -/

/-- The Go error values distinguished by the Run loop. -/
inductive GoError where
  | canceled
  | deadlineExceeded
  | other (msg : String)
deriving DecidableEq, Repr

/-- The outcomes one loop iteration observes: whether the top-of-loop
select sees the context done, what error the fetch call returns, and the
consumer info (NumAckPending, MaxAckPending) queried on a
deadline-exceeded fetch. -/
structure IterIn where
  canceledAtTop : Bool
  fetchErr : Option GoError
  ciResult : Except GoError (Nat × Nat)
deriving Repr

/-- Events of the Run loop and its deferred cleanup. -/
inductive RunEv where
  | sweep (forceFlush : Bool)
  | unsubscribe
  | drain
deriving DecidableEq, Repr

/-- Models the Go expression int(float64(m) * 0.95). For every
MaxAckPending below 2^48 the double computation is exact enough that the
truncated product equals the integer floor of 95 per cent of m (the
rounded constant 0.95 sits within half an ulp relative error, and away
from multiples of 20 the product is at least 1/20 from an integer), which
is what is embedded here. -/
def ackPendingThreshold (m : Nat) : Nat :=
  m * 95 / 100

/-- The loop of Capture.Run over a script of iteration inputs: returns
the body result (some err-or-nil if a return statement ran, none if the
script was exhausted with the loop still running) and the trace of
sweepBlocks invocations with their forceFlush argument. -/
def runLoop : List IterIn → Option (Option GoError) × List RunEv
  | [] => (none, [])
  | it :: rest =>
    if it.canceledAtTop then (some (some GoError.canceled), [])
    else
      match it.fetchErr with
      | none =>
        let r := runLoop rest
        (r.1, RunEv.sweep false :: r.2)
      | some GoError.canceled => (some none, [])
      | some GoError.deadlineExceeded =>
        match it.ciResult with
        | Except.error e => (some (some e), [])
        | Except.ok ci =>
          let ff := decide (ci.1 ≥ ackPendingThreshold ci.2)
          let r := runLoop rest
          (r.1, RunEv.sweep ff :: r.2)
      | some (GoError.other m) => (some (some (GoError.other m)), [])

/-- Embeds Capture.Run around the loop: when the body returns, the
deferred cleanup performs a final forced sweep, unsubscribes and drains
the connection, then waits for the close callback; if the callback
arrives within the drain timeout the body result stands, otherwise the
named return value is overwritten with a timeout error. -/
def runResult (script : List IterIn) (closeSignalArrives : Bool) :
    Option (Option GoError) × List RunEv :=
  match runLoop script with
  | (none, tr) => (none, tr)
  | (some body, tr) =>
    let fin :=
      if closeSignalArrives then body
      else some (GoError.other "timeout waiting for nats close callback. did you override an existing nats close handler?")
    (some fin, tr ++ [RunEv.sweep true, RunEv.unsubscribe, RunEv.drain])

end JetCapture

namespace JetCapture

/-! Helper lemmas shared by several claims. -/

/-- The ack loop publishes one event per recorded token, in list order,
and counts exactly the tokens whose publish succeeded. -/
theorem ackLoop_eq (c : Conn) (l : List String) :
    ackLoop c l = (l.countP (fun a => !c.pubErr a), l.map AckEv.pub) := by
  induction l with
  | nil => rfl
  | cons a rest ih =>
    simp only [ackLoop, ih, List.countP_cons, List.map_cons]
    by_cases h : c.pubErr a
    · simp [h]
    · simp [h, Nat.add_comm]

/-- Claim C4 is refuted at this input: with a formatter returning five
rows together with an error, dataBlock.write leaves rowCount increased
by five (the Go code adds the returned row count unconditionally), while
the claim states rowCount is unchanged on formatter error; the reply
token is indeed not recorded. -/
theorem write_rowCount_on_error_counterexample :
    (DataBlock.write { start := 0 } (5, some "boom") "tok" 3).1.rowCount = 5 ∧
    ({ start := 0 } : DataBlock).rowCount = 0 ∧
    (DataBlock.write { start := 0 } (5, some "boom") "tok" 3).1.acks = [] ∧
    (DataBlock.write { start := 0 } (5, some "boom") "tok" 3).2 = some "boom" :=
  ⟨rfl, rfl, rfl, rfl⟩

/-- Claim C4 (amended): for every call to dataBlock.write, the reply
token is appended to acks exactly when the formatter returned no error,
messageCount is incremented unconditionally, and rowCount is incremented
by the formatter's returned row count unconditionally — on the error path
as well as on success; the formatter's error is passed through. -/
theorem write_updates (b : DataBlock) (res : Nat × Option String) (ack : String) (ts : Nat) :
    (DataBlock.write b res ack ts).1.messageCount = b.messageCount + 1 ∧
    (DataBlock.write b res ack ts).1.rowCount = b.rowCount + res.1 ∧
    (DataBlock.write b res ack ts).1.acks =
      (match res.2 with
       | none => b.acks ++ [ack]
       | some _ => b.acks) ∧
    (DataBlock.write b res ack ts).2 = res.2 := by
  obtain ⟨rows, err⟩ := res
  cases err <;> simp only [DataBlock.write] <;> split <;> simp

/-- Claim C9: ackAll publishes a positive acknowledgement for each
recorded reply token in exactly the order the tokens were appended to the
acks list, counts only the tokens whose publish succeeded, performs the
connection flush last, and returns the success count together with the
flush result. -/
theorem ackAll_order_and_count (b : DataBlock) (c : Conn) :
    DataBlock.ackAll b c =
      ((b.acks.countP (fun a => !c.pubErr a), c.flushErr),
       b.acks.map AckEv.pub ++ [AckEv.flush]) := by
  simp [DataBlock.ackAll, ackLoop_eq]

/-- Claim C8: on the wrapped (compressed) buffer, Write hands the bytes
to the streaming encoder and leaves the inner buffer untouched;
DoneWriting first closes the encoder — on success flushing its buffered
bytes and trailer into the inner buffer — and only then calls the inner
buffer's DoneWriting; when the encoder close fails, the inner DoneWriting
is not reached. -/
theorem wrapped_write_and_done_order (w : WrappedWriter) (p : List Nat) :
    (WrappedWriter.write w p).2 = [BufEv.encWrite p] ∧
    (WrappedWriter.write w p).1.inner = w.inner ∧
    (WrappedWriter.doneWriting w).2 =
      (if w.wr.closeErr = none then [BufEv.encClose, BufEv.innerDone]
       else [BufEv.encClose]) ∧
    (w.wr.closeErr = none →
      (WrappedWriter.doneWriting w).1.1.inner.data
        = w.inner.data ++ w.wr.pending ++ w.wr.trailer) := by
  refine ⟨rfl, rfl, ?_, ?_⟩
  · cases h : w.wr.closeErr <;>
      simp [WrappedWriter.doneWriting, Encoder.close, h]
  · intro h
    cases hi : w.inner.doneErr <;>
      simp [WrappedWriter.doneWriting, Encoder.close, InnerBuf.doneWriting, h, hi]

/-- Claim C8 witness: at a concrete wrapped buffer with pending bytes and
a trailer, DoneWriting flushes pending plus trailer into the inner
buffer. -/
theorem wrapped_write_and_done_order_witness :
    (WrappedWriter.doneWriting
        { inner := { data := [1] },
          wr := { encode := fun x => x, trailer := [9], pending := [2] } }).1.1.inner.data
      = [1] ++ [2] ++ [9] :=
  (wrapped_write_and_done_order
    { inner := { data := [1] },
      wr := { encode := fun x => x, trailer := [9], pending := [2] } } [3]).2.2.2 rfl

end JetCapture

namespace JetCapture

/-- Renaming a publish event yields an ackPub event; composition form. -/
theorem ackToFin_pub : ackToFin ∘ AckEv.pub = FinEv.ackPub := rfl

/-- No store-write event is produced by renamed connection events. -/
theorem storeWrite_not_mem_ackToFin (flag : Bool) (l : List AckEv) :
    FinEv.storeWrite flag ∉ l.map ackToFin := by
  intro h
  rcases List.mem_map.mp h with ⟨a, _, ha⟩
  cases a <;> simp [ackToFin] at ha

/-- Claim C1: in finalizeBlock, positive acknowledgements are published
only after Store.Write has returned success for the block: when close or
Store.Write returns an error, no ackPub event occurs at all (ackAll is
never reached); on the success path the trace places the store write
strictly before every ack publish; and a close error additionally means
Store.Write itself is never called. -/
theorem finalize_no_ack_without_commit (env : FinalizeEnv) (b : DataBlock) :
    ((env.doneWritingErr ≠ none ∨ env.storeErr ≠ none) →
      ∀ tok, FinEv.ackPub tok ∉ (finalizeBlock env b).2) ∧
    (env.doneWritingErr = none → env.storeErr = none →
      (finalizeBlock env b).2 =
        [FinEv.closeBlock, FinEv.storeWrite true]
          ++ b.acks.map FinEv.ackPub ++ [FinEv.connFlush]
          ++ completeEv env ++ [FinEv.remove]) ∧
    (env.doneWritingErr ≠ none →
      (finalizeBlock env b).1.1 = env.doneWritingErr ∧
      ∀ flag, FinEv.storeWrite flag ∉ (finalizeBlock env b).2) := by
  cases hd : env.doneWritingErr <;> cases hs : env.storeErr <;>
    cases hf : env.conn.flushErr <;> cases hoc : env.hasOnStoreComplete <;>
      simp [finalizeBlock, DataBlock.close, DataBlock.ackAll, ackLoop_eq,
        completeEv, hd, hs, hf, hoc, List.map_append, List.map_map, ackToFin_pub,
        ackToFin]

/-- Claim C1 witness: at a concrete block with two recorded tokens and a
fully successful environment, the trace is close, store write, the two
acks in order, flush, callback, remove; and with a store error no token
is ever acked. -/
theorem finalize_no_ack_without_commit_witness :
    (finalizeBlock
        { doneWritingErr := none, storeErr := none,
          conn := { pubErr := fun _ => false, flushErr := none },
          hasOnStoreComplete := true }
        { start := 7, acks := ["t1", "t2"] }).2 =
      [FinEv.closeBlock, FinEv.storeWrite true]
        ++ [FinEv.ackPub "t1", FinEv.ackPub "t2"] ++ [FinEv.connFlush]
        ++ [FinEv.storeComplete] ++ [FinEv.remove] ∧
    FinEv.ackPub "t1" ∉
      (finalizeBlock
        { doneWritingErr := none, storeErr := some "disk full",
          conn := { pubErr := fun _ => false, flushErr := none },
          hasOnStoreComplete := true }
        { start := 7, acks := ["t1", "t2"] }).2 :=
  ⟨(finalize_no_ack_without_commit
      { doneWritingErr := none, storeErr := none,
        conn := { pubErr := fun _ => false, flushErr := none },
        hasOnStoreComplete := true }
      { start := 7, acks := ["t1", "t2"] }).2.1 rfl rfl,
   (finalize_no_ack_without_commit
      { doneWritingErr := none, storeErr := some "disk full",
        conn := { pubErr := fun _ => false, flushErr := none },
        hasOnStoreComplete := true }
      { start := 7, acks := ["t1", "t2"] }).1 (Or.inr (by simp)) "t1"⟩

/-- Claim C10: dataBlock.Read panics with "invalid block state" whenever
the closed flag is unset; close sets the flag even when the buffer's
DoneWriting fails; along finalizeBlock every store-write event sees a
closed block, and the block finalizeBlock ends with reads without
panicking — so the panic branch is unreachable for a store reading the
block it was handed. -/
theorem read_panic_guard (env : FinalizeEnv) (b : DataBlock) (e : Option String) :
    (b.closed = false → DataBlock.Read b = ReadResult.panicked "invalid block state") ∧
    (DataBlock.close b e).1.closed = true ∧
    (∀ flag, FinEv.storeWrite flag ∈ (finalizeBlock env b).2 → flag = true) ∧
    DataBlock.Read (finalizeBlock env b).1.2.1 = ReadResult.ok := by
  refine ⟨fun h => by simp [DataBlock.Read, h], rfl, ?_, ?_⟩
  · intro flag hmem
    cases hd : env.doneWritingErr <;> cases hs : env.storeErr <;>
      cases hf : env.conn.flushErr <;> cases hoc : env.hasOnStoreComplete <;>
        simp [finalizeBlock, DataBlock.close, DataBlock.ackAll, ackLoop_eq,
          completeEv, hd, hs, hf, hoc, List.map_append, List.map_map, ackToFin_pub,
          ackToFin] at hmem <;>
        exact hmem
  · cases hd : env.doneWritingErr <;> cases hs : env.storeErr <;>
      cases hf : env.conn.flushErr <;>
        simp [finalizeBlock, DataBlock.close, DataBlock.ackAll, DataBlock.Read,
          hd, hs, hf]

/-- Claim C10 witness: a concrete unclosed block panics on Read, and at a
concrete successful finalization the store-write event carries a closed
block. -/
theorem read_panic_guard_witness :
    DataBlock.Read { start := 0 } = ReadResult.panicked "invalid block state" ∧
    true = true :=
  ⟨(read_panic_guard
      { doneWritingErr := none, storeErr := none,
        conn := { pubErr := fun _ => false, flushErr := none },
        hasOnStoreComplete := false }
      { start := 0 } none).1 rfl,
   (read_panic_guard
      { doneWritingErr := none, storeErr := none,
        conn := { pubErr := fun _ => false, flushErr := none },
        hasOnStoreComplete := false }
      { start := 0 } none).2.2.1 true (by decide)⟩

end JetCapture

namespace JetCapture

variable {K : Type}

/-- The per-key sweep loop keeps exactly the immature blocks and collects
exactly the mature ones, both in slice order. -/
theorem sweepKey_eq (maxAge : Nat) (maxMessages : Int) (newest : Nat)
    (ff : Bool) (l : List DataBlock) :
    sweepKey maxAge maxMessages newest ff l =
      (l.filter (fun b => !blockIsMature maxAge maxMessages newest ff b),
       l.filter (blockIsMature maxAge maxMessages newest ff)) := by
  induction l with
  | nil => rfl
  | cons b bs ih =>
    simp only [sweepKey, ih, List.filter_cons]
    by_cases h : blockIsMature maxAge maxMessages newest ff b <;> simp [h]

/-- The map part and the finalized part of a sweep, in closed form. -/
theorem sweepBlocks_eq (maxAge : Nat) (maxMessages : Int) (newest : Nat)
    (ff : Bool) (blocks : List (K × List DataBlock)) :
    sweepBlocks maxAge maxMessages newest ff blocks =
      (blocks.map (fun e =>
        (e.1, e.2.filter (fun b => !blockIsMature maxAge maxMessages newest ff b))),
       blocks.flatMap (fun e =>
        (e.2.filter (blockIsMature maxAge maxMessages newest ff)).map
          (fun b => (e.1, b)))) := by
  induction blocks with
  | nil => rfl
  | cons e rest ih =>
    obtain ⟨dk, v⟩ := e
    simp [sweepBlocks, ih, sweepKey_eq]

/-- Claim C5: a sweep finalizes an open block exactly when forceFlush is
set, or the newest observed message is strictly past start + MaxAge, or
MaxMessages is positive and the block's messageCount has reached it; all
other blocks are kept, under their destination key, and the key's list is
exactly its immature blocks in order. -/
theorem sweep_finalizes_iff (maxAge : Nat) (maxMessages : Int) (newest : Nat)
    (ff : Bool) (blocks : List (K × List DataBlock)) (dk : K)
    (v : List DataBlock) (b : DataBlock)
    (hentry : (dk, v) ∈ blocks) (hb : b ∈ v) :
    ((dk, b) ∈ (sweepBlocks maxAge maxMessages newest ff blocks).2 ↔
      (ff = true ∨ newest > b.start + maxAge ∨
        (0 < maxMessages ∧ maxMessages ≤ (b.messageCount : Int)))) ∧
    ((dk, v.filter (fun x => !blockIsMature maxAge maxMessages newest ff x)) ∈
      (sweepBlocks maxAge maxMessages newest ff blocks).1) ∧
    (blockIsMature maxAge maxMessages newest ff b = false →
      b ∈ v.filter (fun x => !blockIsMature maxAge maxMessages newest ff x)) := by
  rw [sweepBlocks_eq]
  refine ⟨?_, ?_, ?_⟩
  · constructor
    · intro hmem
      rcases List.mem_flatMap.mp hmem with ⟨e, _, hin⟩
      rcases List.mem_map.mp hin with ⟨b2, hb2, heq⟩
      have hbb : b2 = b := congrArg Prod.snd heq
      subst hbb
      have := List.of_mem_filter hb2
      simpa [blockIsMature, or_assoc] using this
    · intro hcond
      refine List.mem_flatMap.mpr ⟨(dk, v), hentry, ?_⟩
      refine List.mem_map.mpr ⟨b, ?_, rfl⟩
      refine List.mem_filter.mpr ⟨hb, ?_⟩
      simpa [blockIsMature, or_assoc] using hcond
  · exact List.mem_map.mpr ⟨(dk, v), hentry, rfl⟩
  · intro hnot
    exact List.mem_filter.mpr ⟨hb, by simp [hnot]⟩

/-- Claim C5 witness: with MaxAge 10, newest observed time 25 and no
force flush, a key's aged-out block is finalized and its young block is
kept. -/
theorem sweep_finalizes_iff_witness :
    ((((0 : Nat), ({ bid := 1, start := 0 } : DataBlock)) ∈
        (sweepBlocks 10 0 25 false
          [((0 : Nat), [{ bid := 1, start := 0 }, { bid := 2, start := 20 }])]).2) ↔
      (false = true ∨ 25 > 0 + 10 ∨ (0 < (0 : Int) ∧ (0 : Int) ≤ 0))) ∧
    (((0 : Nat), [({ bid := 2, start := 20 } : DataBlock)]) ∈
      (sweepBlocks 10 0 25 false
        [((0 : Nat), [{ bid := 1, start := 0 }, { bid := 2, start := 20 }])]).1) := by
  have h1 := sweep_finalizes_iff 10 0 25 false
    [((0 : Nat), [{ bid := 1, start := 0 }, { bid := 2, start := 20 }])]
    0 [{ bid := 1, start := 0 }, { bid := 2, start := 20 }] { bid := 1, start := 0 }
    (by decide) (by decide)
  have h2 := sweep_finalizes_iff 10 0 25 false
    [((0 : Nat), [{ bid := 1, start := 0 }, { bid := 2, start := 20 }])]
    0 [{ bid := 1, start := 0 }, { bid := 2, start := 20 }] { bid := 2, start := 20 }
    (by decide) (by decide)
  refine ⟨h1.1, ?_⟩
  have := h2.2.1
  simpa [blockIsMature] using this

end JetCapture

namespace JetCapture

/-- Claim C6 is refuted at this input: with MaxAckPending 21 and
NumAckPending 19, the ack-pending count is strictly below 95 per cent of
the ceiling (19 < 19.95), yet the Go threshold int(float64(21)*0.95)
truncates to 19, so the sweep after the deadline-exceeded fetch runs with
forceFlush true — the claim predicts forceFlush false for this input. -/
theorem run_threshold_counterexample :
    ((19 : ℚ) < (95 / 100) * 21) ∧
    (runLoop [{ canceledAtTop := false, fetchErr := some GoError.deadlineExceeded,
                ciResult := Except.ok (19, 21) }]).2 = [RunEv.sweep true] := by
  refine ⟨by norm_num, ?_⟩
  rfl

/-- Claim C6 (amended): after a nil fetch the next sweep uses forceFlush
false; after a deadline-exceeded fetch with consumer info reporting
NumAckPending at or above the truncated threshold int(0.95 times
MaxAckPending), the next sweep uses forceFlush true, and below that
threshold forceFlush false. -/
theorem run_forceFlush_policy (it : IterIn) (rest : List IterIn)
    (nap cap : Nat) (hTop : it.canceledAtTop = false) :
    (it.fetchErr = none →
      (runLoop (it :: rest)).2 = RunEv.sweep false :: (runLoop rest).2) ∧
    (it.fetchErr = some GoError.deadlineExceeded →
      it.ciResult = Except.ok (nap, cap) →
      nap ≥ ackPendingThreshold cap →
      (runLoop (it :: rest)).2 = RunEv.sweep true :: (runLoop rest).2) ∧
    (it.fetchErr = some GoError.deadlineExceeded →
      it.ciResult = Except.ok (nap, cap) →
      nap < ackPendingThreshold cap →
      (runLoop (it :: rest)).2 = RunEv.sweep false :: (runLoop rest).2) := by
  refine ⟨?_, ?_, ?_⟩
  · intro hf
    simp [runLoop, hTop, hf]
  · intro hf hci hge
    simp [runLoop, hTop, hf, hci, hge]
  · intro hf hci hlt
    simp [runLoop, hTop, hf, hci, Nat.not_le.mpr hlt]

/-- Claim C6 witness: concrete iterations exercising the three branches:
a nil fetch sweeps without force; a deadline fetch at 19 of 20 pending
(threshold 19) forces the flush; a deadline fetch at 18 of 20 does not. -/
theorem run_forceFlush_policy_witness :
    (runLoop [{ canceledAtTop := false, fetchErr := none,
                ciResult := Except.ok (0, 0) }]).2 = [RunEv.sweep false] ∧
    (runLoop [{ canceledAtTop := false, fetchErr := some GoError.deadlineExceeded,
                ciResult := Except.ok (19, 20) }]).2 = [RunEv.sweep true] ∧
    (runLoop [{ canceledAtTop := false, fetchErr := some GoError.deadlineExceeded,
                ciResult := Except.ok (18, 20) }]).2 = [RunEv.sweep false] :=
  ⟨(run_forceFlush_policy
      { canceledAtTop := false, fetchErr := none, ciResult := Except.ok (0, 0) }
      [] 0 0 rfl).1 rfl,
   (run_forceFlush_policy
      { canceledAtTop := false, fetchErr := some GoError.deadlineExceeded,
        ciResult := Except.ok (19, 20) }
      [] 19 20 rfl).2.1 rfl rfl (by decide),
   (run_forceFlush_policy
      { canceledAtTop := false, fetchErr := some GoError.deadlineExceeded,
        ciResult := Except.ok (18, 20) }
      [] 18 20 rfl).2.2 rfl rfl (by decide)⟩

/-- Claim C7 is refuted at this input: when the canceled context is
observed at the top-of-loop select, the loop body returns ctx.Err(),
that is context.Canceled, and Run ends with that non-nil error even
though the deferred cleanup (forced sweep, unsubscribe, drain) still
runs — the claim states Run returns nil whenever the outermost context
is canceled. -/
theorem run_cancel_counterexample :
    runResult [{ canceledAtTop := true, fetchErr := none,
                 ciResult := Except.ok (0, 0) }] true
      = (some (some GoError.canceled),
         [RunEv.sweep true, RunEv.unsubscribe, RunEv.drain]) ∧
    some GoError.canceled ≠ (none : Option GoError) := by
  refine ⟨rfl, by simp⟩

/-- Claim C7 (amended): when cancellation surfaces as the fetch call
returning context.Canceled, the loop body returns nil; whenever the body
returns, the deferred cleanup performs a final sweep with forceFlush
true, unsubscribes and drains, and — with the close callback arriving
within the drain timeout — Run returns the body's value, hence nil in the
fetch-cancellation case; cancellation observed at the top-of-loop select
instead makes the body return context.Canceled, after the same cleanup. -/
theorem run_cancel_graceful (it it2 : IterIn) (rest rest2 script : List IterIn)
    (body : Option GoError) (tr : List RunEv)
    (hTop : it.canceledAtTop = false)
    (hF : it.fetchErr = some GoError.canceled)
    (hTop2 : it2.canceledAtTop = true)
    (hs : runLoop script = (some body, tr)) :
    runLoop (it :: rest) = (some none, []) ∧
    runLoop (it2 :: rest2) = (some (some GoError.canceled), []) ∧
    runResult script true =
      (some body, tr ++ [RunEv.sweep true, RunEv.unsubscribe, RunEv.drain]) := by
  refine ⟨by simp [runLoop, hTop, hF], by simp [runLoop, hTop2], ?_⟩
  simp [runResult, hs]

/-- Claim C7 witness: a concrete run whose only iteration observes
cancellation inside fetch returns nil after the forced final sweep,
unsubscribe and drain. -/
theorem run_cancel_graceful_witness :
    runResult [{ canceledAtTop := false, fetchErr := some GoError.canceled,
                 ciResult := Except.ok (0, 0) }] true
      = (some none, [RunEv.sweep true, RunEv.unsubscribe, RunEv.drain]) :=
  (run_cancel_graceful
    { canceledAtTop := false, fetchErr := some GoError.canceled,
      ciResult := Except.ok (0, 0) }
    { canceledAtTop := true, fetchErr := none, ciResult := Except.ok (0, 0) }
    [] []
    [{ canceledAtTop := false, fetchErr := some GoError.canceled,
       ciResult := Except.ok (0, 0) }]
    none [] rfl rfl rfl rfl).2.2

end JetCapture


namespace JetCapture

variable {P K : Type} [DecidableEq K]

/-- All reply tokens recorded anywhere in a blocks map. -/
def acksOf (blocks : List (K × List DataBlock)) : List String :=
  blocks.flatMap fun e => e.2.flatMap (fun b => b.acks)

/-- The engine's recorded tokens are those of its blocks map. -/
theorem allAcks_eq (s : EngineState K) : allAcks s = acksOf s.blocks := rfl

/-- Membership in the recorded tokens, entry by entry. -/
theorem mem_acksOf {blocks : List (K × List DataBlock)} {a : String} :
    a ∈ acksOf blocks ↔ ∃ e ∈ blocks, ∃ b ∈ e.2, a ∈ b.acks := by
  simp [acksOf]

/-- Entries after ensuring a key: an old entry or the fresh empty one. -/
theorem ensureKey_mem {blocks : List (K × List DataBlock)} {dk : K}
    {e : K × List DataBlock} (h : e ∈ ensureKey blocks dk) :
    e ∈ blocks ∨ e = (dk, []) := by
  induction blocks with
  | nil => simpa [ensureKey] using h
  | cons e0 rest ih =>
    obtain ⟨k, v⟩ := e0
    by_cases hk : k = dk
    · simp only [ensureKey, if_pos hk] at h
      exact Or.inl h
    · simp only [ensureKey, if_neg hk] at h
      rcases List.mem_cons.mp h with h | h
      · exact Or.inl (by simp [h])
      · rcases ih h with h2 | h2
        · exact Or.inl (List.mem_cons_of_mem _ h2)
        · exact Or.inr h2

/-- A key's block list is empty or is held by an entry of the map. -/
theorem getBlocks_entry (blocks : List (K × List DataBlock)) (dk : K) :
    getBlocks blocks dk = [] ∨ (dk, getBlocks blocks dk) ∈ blocks := by
  induction blocks with
  | nil => exact Or.inl rfl
  | cons e rest ih =>
    obtain ⟨k, v⟩ := e
    by_cases hk : k = dk
    · subst hk
      right
      simp [getBlocks]
    · rcases ih with h | h
      · left
        simpa [getBlocks, hk] using h
      · right
        rw [getBlocks]
        rw [if_neg hk]
        exact List.mem_cons_of_mem _ h

/-- Entries after appending a block under a key: an old entry or the
key's extended entry. -/
theorem addBlock_mem {blocks : List (K × List DataBlock)} {dk : K}
    {bk : DataBlock} {e : K × List DataBlock} (h : e ∈ addBlock blocks dk bk) :
    e ∈ blocks ∨ e = (dk, getBlocks blocks dk ++ [bk]) := by
  induction blocks with
  | nil =>
    right
    simpa [addBlock, getBlocks] using h
  | cons e0 rest ih =>
    obtain ⟨k, v⟩ := e0
    by_cases hk : k = dk
    · subst hk
      simp only [addBlock, if_pos rfl] at h
      rcases List.mem_cons.mp h with h | h
      · right
        simpa [getBlocks] using h
      · exact Or.inl (List.mem_cons_of_mem _ h)
    · simp only [addBlock, if_neg hk] at h
      rcases List.mem_cons.mp h with h | h
      · exact Or.inl (by simp [h])
      · rcases ih h with h2 | h2
        · exact Or.inl (List.mem_cons_of_mem _ h2)
        · right
          rw [getBlocks, if_neg hk]
          exact h2

/-- Entries after rewriting one block: an old entry or the rewritten
image of an old entry of the same key. -/
theorem updateBlock_mem {blocks : List (K × List DataBlock)} {dk : K}
    {bid : Nat} {f : DataBlock → DataBlock} {e : K × List DataBlock}
    (h : e ∈ updateBlock blocks dk bid f) :
    e ∈ blocks ∨ ∃ v, (dk, v) ∈ blocks ∧
      e = (dk, v.map fun b => if b.bid = bid then f b else b) := by
  induction blocks with
  | nil => simp [updateBlock] at h
  | cons e0 rest ih =>
    obtain ⟨k, v⟩ := e0
    by_cases hk : k = dk
    · subst hk
      simp only [updateBlock, if_pos rfl] at h
      rcases List.mem_cons.mp h with h | h
      · exact Or.inr ⟨v, by simp, h⟩
      · exact Or.inl (List.mem_cons_of_mem _ h)
    · simp only [updateBlock, if_neg hk] at h
      rcases List.mem_cons.mp h with h | h
      · exact Or.inl (by simp [h])
      · rcases ih h with h2 | h2
        · exact Or.inl (List.mem_cons_of_mem _ h2)
        · rcases h2 with ⟨v2, hv2, he⟩
          exact Or.inr ⟨v2, List.mem_cons_of_mem _ hv2, he⟩

/-- Ensuring a key records no token. -/
theorem acksOf_ensureKey_mem {blocks : List (K × List DataBlock)} {dk : K}
    {a : String} (h : a ∈ acksOf (ensureKey blocks dk)) : a ∈ acksOf blocks := by
  rcases mem_acksOf.mp h with ⟨e, he, b, hb, ha⟩
  rcases ensureKey_mem he with h2 | h2
  · exact mem_acksOf.mpr ⟨e, h2, b, hb, ha⟩
  · subst h2
    simp at hb

/-- Appending a block contributes at most that block's own tokens. -/
theorem acksOf_addBlock_mem {blocks : List (K × List DataBlock)} {dk : K}
    {bk : DataBlock} {a : String} (h : a ∈ acksOf (addBlock blocks dk bk)) :
    a ∈ acksOf blocks ∨ a ∈ bk.acks := by
  rcases mem_acksOf.mp h with ⟨e, he, b, hb, ha⟩
  rcases addBlock_mem he with h2 | h2
  · exact Or.inl (mem_acksOf.mpr ⟨e, h2, b, hb, ha⟩)
  · subst h2
    rcases List.mem_append.mp hb with hb | hb
    · rcases getBlocks_entry blocks dk with hg | hg
      · rw [hg] at hb
        simp at hb
      · exact Or.inl (mem_acksOf.mpr ⟨(dk, getBlocks blocks dk), hg, b, hb, ha⟩)
    · have hbk : b = bk := by simpa using hb
      subst hbk
      exact Or.inr ha

/-- Rewriting one block contributes at most what the rewrite itself
adds to the token list. -/
theorem acksOf_updateBlock_mem {blocks : List (K × List DataBlock)} {dk : K}
    {bid : Nat} {f : DataBlock → DataBlock} {tok a : String}
    (hf : ∀ b0 : DataBlock, a ∈ (f b0).acks → a ∈ b0.acks ∨ a = tok)
    (h : a ∈ acksOf (updateBlock blocks dk bid f)) :
    a ∈ acksOf blocks ∨ a = tok := by
  rcases mem_acksOf.mp h with ⟨e, he, b, hb, ha⟩
  rcases updateBlock_mem he with h2 | h2
  · exact Or.inl (mem_acksOf.mpr ⟨e, h2, b, hb, ha⟩)
  · rcases h2 with ⟨v, hv, he2⟩
    subst he2
    rcases List.mem_map.mp hb with ⟨b0, hb0, hfb⟩
    by_cases hbb : b0.bid = bid
    · rw [if_pos hbb] at hfb
      subst hfb
      rcases hf b0 ha with h3 | h3
      · exact Or.inl (mem_acksOf.mpr ⟨(dk, v), hv, b0, hb0, h3⟩)
      · exact Or.inr h3
    · rw [if_neg hbb] at hfb
      subst hfb
      exact Or.inl (mem_acksOf.mpr ⟨(dk, v), hv, b0, hb0, ha⟩)

/-- The token list of a written block, in closed form. -/
theorem write_acks (blk : DataBlock) (rows : Nat) (err : Option String)
    (tok : String) (ts : Nat) :
    ((blk.write (rows, err) tok ts).1).acks =
      (match err with
       | none => blk.acks ++ [tok]
       | some _ => blk.acks) := by
  cases err <;> simp only [DataBlock.write] <;> split <;> simp

/-- Writing a message into a block records at most its own token. -/
theorem write_acks_mem (blk : DataBlock) (rows : Nat) (err : Option String)
    (tok : String) (ts : Nat) (a : String)
    (h : a ∈ ((blk.write (rows, err) tok ts).1).acks) :
    a ∈ blk.acks ∨ a = tok := by
  have hw := write_acks blk rows err tok ts
  cases err with
  | none =>
    simp only at hw
    rw [hw] at h
    rcases List.mem_append.mp h with h | h
    · exact Or.inl h
    · exact Or.inr (by simpa using h)
  | some e =>
    simp only at hw
    rw [hw] at h
    exact Or.inl h

/-- bumpNewest leaves the blocks map unchanged. -/
theorem bumpNewest_blocks (s : EngineState K) (ts : Nat) :
    (bumpNewest s ts).blocks = s.blocks := by
  unfold bumpNewest
  split <;> rfl

/-- bumpNewest is the max of the old and the observed timestamp. -/
theorem bumpNewest_eq_max (s : EngineState K) (ts : Nat) :
    bumpNewest s ts = { s with newestMessage := max s.newestMessage ts } := by
  unfold bumpNewest
  by_cases h : ts > s.newestMessage
  · simp [h, Nat.max_eq_right (Nat.le_of_lt h)]
  · simp [h, Nat.max_eq_left (Nat.le_of_not_lt h)]

/-- findBlock records no token: the ensured entry is empty and a freshly
created block starts with an empty acks list. -/
theorem findBlock_acks_sub (maxAge : Nat) (bufErr : Option String)
    (s s1 : EngineState K) (dk : K) (ts : Nat) (r : Except String DataBlock)
    (hfb : findBlock maxAge bufErr s dk ts = (s1, r)) (a : String)
    (h : a ∈ acksOf s1.blocks) : a ∈ acksOf s.blocks := by
  unfold findBlock at hfb
  cases hfind : findInList (truncate ts maxAge) (getBlocks (ensureKey s.blocks dk) dk) with
  | some b =>
    rw [hfind] at hfb
    have hs1 : s1 = { s with blocks := ensureKey s.blocks dk } :=
      (congrArg Prod.fst hfb).symm
    rw [hs1] at h
    exact acksOf_ensureKey_mem h
  | none =>
    rw [hfind] at hfb
    cases hbuf : bufErr with
    | some e =>
      rw [hbuf] at hfb
      have hs1 : s1 = { s with blocks := ensureKey s.blocks dk } :=
        (congrArg Prod.fst hfb).symm
      rw [hs1] at h
      exact acksOf_ensureKey_mem h
    | none =>
      rw [hbuf] at hfb
      have hs1 : s1 = { s with
          blocks := addBlock (ensureKey s.blocks dk) dk
            { bid := s.nextId, start := truncate ts maxAge },
          nextId := s.nextId + 1 } :=
        (congrArg Prod.fst hfb).symm
      rw [hs1] at h
      rcases acksOf_addBlock_mem h with h2 | h2
      · exact acksOf_ensureKey_mem h2
      · simp at h2

/-- Each fetch-loop step records at most the processed message's own
reply token. -/
theorem fetchStep_acks_mem (maxAge : Nat) (s : EngineState K) (m : Msg P K)
    (a : String) (h : a ∈ allAcks (fetchStep maxAge s m)) :
    a ∈ allAcks s ∨ a = m.reply := by
  cases hdec : safeDecode m.decode with
  | error e =>
    have hst : fetchStep maxAge s m = bumpNewest s m.ts := by
      unfold fetchStep
      rw [hdec]
    rw [hst] at h
    left
    simpa [allAcks_eq, bumpNewest_blocks] using h
  | ok pk =>
    cases hfb : findBlock maxAge m.bufErr (bumpNewest s m.ts) pk.2 m.ts with
    | mk s1 r =>
      cases r with
      | error e =>
        have hst : fetchStep maxAge s m = s1 := by
          simp only [fetchStep, hdec, hfb]
        rw [hst] at h
        left
        have h2 := findBlock_acks_sub maxAge m.bufErr (bumpNewest s m.ts) s1
          pk.2 m.ts (Except.error e) hfb a (by simpa [allAcks_eq] using h)
        simpa [allAcks_eq, bumpNewest_blocks] using h2
      | ok b =>
        have hst : fetchStep maxAge s m =
            { s1 with
                blocks :=
                  updateBlock s1.blocks pk.2 b.bid
                    (fun blk => (blk.write (m.writeRows, m.writeErr) m.reply m.ts).1) } := by
          simp only [fetchStep, hdec, hfb]
        rw [hst] at h
        rw [allAcks_eq] at h
        have h2 := acksOf_updateBlock_mem
          (fun b0 hb0 => write_acks_mem b0 m.writeRows m.writeErr m.reply m.ts a hb0) h
        rcases h2 with h2 | h2
        · left
          have h3 := findBlock_acks_sub maxAge m.bufErr (bumpNewest s m.ts) s1
            pk.2 m.ts (Except.ok b) hfb a h2
          simpa [allAcks_eq, bumpNewest_blocks] using h3
        · exact Or.inr h2

/-- The whole message loop records at most the reply tokens of the
processed messages. -/
theorem processMsgs_acks_mem (maxAge : Nat) (l : List (Msg P K))
    (s : EngineState K) (a : String)
    (h : a ∈ allAcks (processMsgs maxAge s l)) :
    a ∈ allAcks s ∨ ∃ m2 ∈ l, a = m2.reply := by
  induction l generalizing s with
  | nil => exact Or.inl h
  | cons m rest ih =>
    rcases ih (fetchStep maxAge s m) h with h2 | h2
    · rcases fetchStep_acks_mem maxAge s m a h2 with h3 | h3
      · exact Or.inl h3
      · exact Or.inr ⟨m, by simp, h3⟩
    · rcases h2 with ⟨m2, hm2, ha⟩
      exact Or.inr ⟨m2, by simp [hm2], ha⟩

/-- The message loop splits over list concatenation. -/
theorem processMsgs_append (maxAge : Nat) (s : EngineState K)
    (l1 l2 : List (Msg P K)) :
    processMsgs maxAge s (l1 ++ l2) =
      processMsgs maxAge (processMsgs maxAge s l1) l2 := by
  induction l1 generalizing s with
  | nil => rfl
  | cons m rest ih => simp [processMsgs, ih]

end JetCapture

namespace JetCapture

variable {P K : Type} [DecidableEq K]

/-- Claim C2: a decoder panic is recovered by safeDecode and surfaces as
an error carrying the recovered value, never a crash; the fetch loop then
leaves the engine state untouched except for the newest-message watermark
(in particular it records the message's reply token nowhere) and goes on
to process the remaining messages; provided no other message carries the
same reply token, that token is never recorded for acknowledgement. -/
theorem decode_panic_containment (maxAge : Nat) (s : EngineState K)
    (m : Msg P K) (v : String) (pre post : List (Msg P K))
    (hm : m.decode = DecoderBehavior.panics v) :
    safeDecode m.decode = Except.error ("panic during decode: " ++ v) ∧
    fetchStep maxAge s m = { s with newestMessage := max s.newestMessage m.ts } ∧
    processMsgs maxAge s (pre ++ m :: post) =
      processMsgs maxAge (fetchStep maxAge (processMsgs maxAge s pre) m) post ∧
    (m.reply ∉ allAcks s →
      (∀ m2 ∈ pre, m2.reply ≠ m.reply) →
      (∀ m2 ∈ post, m2.reply ≠ m.reply) →
      m.reply ∉ allAcks (processMsgs maxAge s (pre ++ m :: post))) := by
  have hdec : safeDecode m.decode = Except.error ("panic during decode: " ++ v) := by
    rw [hm]
    rfl
  have hstep : ∀ s0 : EngineState K, fetchStep maxAge s0 m =
      { s0 with newestMessage := max s0.newestMessage m.ts } := by
    intro s0
    have : fetchStep maxAge s0 m = bumpNewest s0 m.ts := by
      simp only [fetchStep, hdec]
    rw [this, bumpNewest_eq_max]
  refine ⟨hdec, hstep s, ?_, ?_⟩
  · rw [processMsgs_append]
    rfl
  · intro hnot hpre hpost hmem
    rw [processMsgs_append] at hmem
    have hsplit : processMsgs maxAge (processMsgs maxAge s pre) (m :: post) =
        processMsgs maxAge (fetchStep maxAge (processMsgs maxAge s pre) m) post := rfl
    rw [hsplit] at hmem
    rcases processMsgs_acks_mem maxAge post _ m.reply hmem with h2 | h2
    · rw [hstep (processMsgs maxAge s pre)] at h2
      have h3 : m.reply ∈ allAcks (processMsgs maxAge s pre) := by
        simpa [allAcks_eq] using h2
      rcases processMsgs_acks_mem maxAge pre s m.reply h3 with h4 | h4
      · exact hnot h4
      · rcases h4 with ⟨m2, hm2, he⟩
        exact hpre m2 hm2 he.symm
    · rcases h2 with ⟨m2, hm2, he⟩
      exact hpost m2 hm2 he.symm

/-- Claim C2 witness: a concrete panicking message on an empty engine:
the panic is converted to an error and the reply token is never
recorded. -/
theorem decode_panic_containment_witness :
    safeDecode (DecoderBehavior.panics "boom" : DecoderBehavior Unit Nat) =
      Except.error ("panic during decode: " ++ "boom") ∧
    "r1" ∉ allAcks (processMsgs 10 ({} : EngineState Nat)
      ([] ++ ({ ts := 5, reply := "r1",
                decode := (DecoderBehavior.panics "boom" : DecoderBehavior Unit Nat) } :
          Msg Unit Nat) :: [])) :=
  ⟨(decode_panic_containment 10 ({} : EngineState Nat)
      ({ ts := 5, reply := "r1",
         decode := (DecoderBehavior.panics "boom" : DecoderBehavior Unit Nat) } :
        Msg Unit Nat) "boom" [] [] rfl).1,
   (decode_panic_containment 10 ({} : EngineState Nat)
      ({ ts := 5, reply := "r1",
         decode := (DecoderBehavior.panics "boom" : DecoderBehavior Unit Nat) } :
        Msg Unit Nat) "boom" [] [] rfl).2.2.2
      (by decide) (by simp) (by simp)⟩

end JetCapture

namespace JetCapture

variable {P K : Type} [DecidableEq K]

/-- All open blocks held anywhere in a blocks map. -/
def allBlocksOf (blocks : List (K × List DataBlock)) : List DataBlock :=
  blocks.flatMap fun e => e.2

/-- Unfolding allBlocksOf over a leading entry. -/
theorem allBlocksOf_cons (e : K × List DataBlock) (rest : List (K × List DataBlock)) :
    allBlocksOf (e :: rest) = e.2 ++ allBlocksOf rest := by
  simp [allBlocksOf]

/-- A found block belongs to the searched list and has the searched
start. -/
theorem findInList_some {st : Nat} {l : List DataBlock} {b : DataBlock}
    (h : findInList st l = some b) : b ∈ l ∧ b.start = st := by
  induction l with
  | nil => simp [findInList] at h
  | cons b0 bs ih =>
    by_cases h0 : b0.start = st
    · simp only [findInList, if_pos h0] at h
      cases h
      exact ⟨by simp, h0⟩
    · simp only [findInList, if_neg h0] at h
      rcases ih h with ⟨hm, hs⟩
      exact ⟨List.mem_cons_of_mem _ hm, hs⟩

/-- With pairwise-distinct starts, search finds exactly the member block
carrying the searched start. -/
theorem findInList_of_mem {st : Nat} {l : List DataBlock} {b : DataBlock}
    (hnd : (l.map DataBlock.start).Nodup) (hb : b ∈ l) (hs : b.start = st) :
    findInList st l = some b := by
  induction l with
  | nil => simp at hb
  | cons b0 bs ih =>
    rcases List.mem_cons.mp hb with hb | hb
    · subst hb
      simp [findInList, hs]
    · have hne : b0.start ≠ st := by
        intro he
        have : b0.start ∈ bs.map DataBlock.start :=
          List.mem_map.mpr ⟨b, hb, hs.trans he.symm⟩
        exact (List.nodup_cons.mp (by simpa using hnd)).1 this
      rw [findInList, if_neg hne]
      exact ih (List.nodup_cons.mp (by simpa using hnd)).2 hb

/-- A failed search means no member block carries the searched start. -/
theorem findInList_none {st : Nat} {l : List DataBlock}
    (h : findInList st l = none) : ∀ b ∈ l, b.start ≠ st := by
  induction l with
  | nil => simp
  | cons b0 bs ih =>
    by_cases h0 : b0.start = st
    · simp [findInList, if_pos h0] at h
    · simp only [findInList, if_neg h0] at h
      intro b hb
      rcases List.mem_cons.mp hb with hb | hb
      · subst hb; exact h0
      · exact ih h b hb

/-- Ensuring a key does not change the set of open blocks. -/
theorem allBlocksOf_ensureKey (blocks : List (K × List DataBlock)) (dk : K) :
    allBlocksOf (ensureKey blocks dk) = allBlocksOf blocks := by
  induction blocks with
  | nil => simp [ensureKey, allBlocksOf]
  | cons e rest ih =>
    obtain ⟨k, v⟩ := e
    by_cases hk : k = dk
    · simp [ensureKey, if_pos hk]
    · simp only [ensureKey, if_neg hk]
      rw [allBlocksOf_cons, allBlocksOf_cons, ih]

/-- Ensuring a key does not change any key's block list. -/
theorem getBlocks_ensureKey (blocks : List (K × List DataBlock)) (dk dk2 : K) :
    getBlocks (ensureKey blocks dk) dk2 = getBlocks blocks dk2 := by
  induction blocks with
  | nil =>
    by_cases h : dk = dk2 <;> simp [ensureKey, getBlocks, h]
  | cons e rest ih =>
    obtain ⟨k, v⟩ := e
    by_cases hk : k = dk
    · simp [ensureKey, if_pos hk]
    · simp only [ensureKey, if_neg hk]
      by_cases hk2 : k = dk2 <;> simp [getBlocks, hk2, ih]

/-- Appending a block extends exactly its key's list. -/
theorem getBlocks_addBlock (blocks : List (K × List DataBlock)) (dk dk2 : K)
    (b : DataBlock) :
    getBlocks (addBlock blocks dk b) dk2 =
      if dk2 = dk then getBlocks blocks dk ++ [b] else getBlocks blocks dk2 := by
  induction blocks with
  | nil =>
    by_cases h : dk2 = dk
    · subst h
      simp [addBlock, getBlocks]
    · have hne : ¬ dk = dk2 := fun he => h he.symm
      rw [if_neg h]
      simp [addBlock, getBlocks, hne]
  | cons e rest ih =>
    obtain ⟨k, v⟩ := e
    by_cases hk : k = dk
    · subst hk
      by_cases h2 : dk2 = k
      · subst h2
        simp [addBlock, getBlocks]
      · have hne : ¬ k = dk2 := fun he => h2 he.symm
        rw [if_neg h2]
        simp [addBlock, getBlocks, hne]
    · simp only [addBlock, if_neg hk]
      by_cases h2 : k = dk2
      · have hne : ¬ dk2 = dk := fun he => hk (h2.trans he)
        rw [if_neg hne]
        simp only [getBlocks, if_pos h2]
      · simp only [getBlocks, if_neg h2, if_neg hk]
        exact ih

/-- Appending a block under a key is, up to permutation, appending it to
the set of all open blocks. -/
theorem allBlocksOf_addBlock_perm (blocks : List (K × List DataBlock)) (dk : K)
    (b : DataBlock) :
    (allBlocksOf (addBlock blocks dk b)).Perm (allBlocksOf blocks ++ [b]) := by
  induction blocks with
  | nil => simp [addBlock, allBlocksOf]
  | cons e rest ih =>
    obtain ⟨k, v⟩ := e
    by_cases hk : k = dk
    · simp only [addBlock, if_pos hk]
      rw [allBlocksOf_cons, allBlocksOf_cons, List.append_assoc, List.append_assoc]
      exact List.Perm.append_left v List.perm_append_comm
    · simp only [addBlock, if_neg hk]
      rw [allBlocksOf_cons, allBlocksOf_cons, List.append_assoc]
      exact List.Perm.append_left v ih

/-- A key's block list sits inside the set of all open blocks. -/
theorem getBlocks_sub {blocks : List (K × List DataBlock)} {dk : K}
    {b : DataBlock} (h : b ∈ getBlocks blocks dk) : b ∈ allBlocksOf blocks := by
  induction blocks with
  | nil => simp [getBlocks] at h
  | cons e rest ih =>
    obtain ⟨k, v⟩ := e
    rw [allBlocksOf_cons]
    by_cases hk : k = dk
    · rw [getBlocks, if_pos hk] at h
      exact List.mem_append.mpr (Or.inl h)
    · rw [getBlocks, if_neg hk] at h
      exact List.mem_append.mpr (Or.inr (ih h))

end JetCapture

namespace JetCapture

variable {P K : Type} [DecidableEq K]

/-- Engine well-formedness maintained by the fetch loop from the empty
initial state: block identities are pairwise distinct and below the
freshness counter, and within one key's list all starts are distinct. -/
structure WF (s : EngineState K) : Prop where
  bidsNodup : ((allBlocksOf s.blocks).map DataBlock.bid).Nodup
  bidsLt : ∀ b ∈ allBlocksOf s.blocks, b.bid < s.nextId
  startsNodup : ∀ e ∈ s.blocks, (e.2.map DataBlock.start).Nodup

/-- Distinct identities restricted to one key's list. -/
theorem bidsNodup_getBlocks {blocks : List (K × List DataBlock)} {dk : K}
    (h : ((allBlocksOf blocks).map DataBlock.bid).Nodup) :
    ((getBlocks blocks dk).map DataBlock.bid).Nodup := by
  induction blocks with
  | nil => simp [getBlocks]
  | cons e rest ih =>
    obtain ⟨k, v⟩ := e
    rw [allBlocksOf_cons, List.map_append] at h
    by_cases hk : k = dk
    · rw [getBlocks, if_pos hk]
      exact h.of_append_left
    · rw [getBlocks, if_neg hk]
      exact ih h.of_append_right

/-- Distinct starts restricted to one key's list. -/
theorem startsNodup_getBlocks {blocks : List (K × List DataBlock)} {dk : K}
    (h : ∀ e ∈ blocks, (e.2.map DataBlock.start).Nodup) :
    ((getBlocks blocks dk).map DataBlock.start).Nodup := by
  rcases getBlocks_entry blocks dk with hg | hg
  · rw [hg]
    simp
  · exact h _ hg

/-- Blocks reachable under different keys never share an identity. -/
theorem bid_ne_of_keys_ne {blocks : List (K × List DataBlock)} {dk1 dk2 : K}
    {b1 b2 : DataBlock}
    (hnd : ((allBlocksOf blocks).map DataBlock.bid).Nodup)
    (hk : dk1 ≠ dk2) (h1 : b1 ∈ getBlocks blocks dk1)
    (h2 : b2 ∈ getBlocks blocks dk2) : b1.bid ≠ b2.bid := by
  induction blocks with
  | nil => simp [getBlocks] at h1
  | cons e rest ih =>
    obtain ⟨k, v⟩ := e
    rw [allBlocksOf_cons, List.map_append] at hnd
    have hdisj := (List.nodup_append.mp hnd).2.2
    by_cases hk1 : k = dk1
    · rw [getBlocks, if_pos hk1] at h1
      have hk2 : ¬ k = dk2 := fun he => hk (hk1.symm.trans he)
      rw [getBlocks, if_neg hk2] at h2
      intro he
      exact hdisj (List.mem_map.mpr ⟨b1, h1, rfl⟩)
        (by rw [he]; exact List.mem_map.mpr ⟨b2, getBlocks_sub h2, rfl⟩)
    · rw [getBlocks, if_neg hk1] at h1
      by_cases hk2 : k = dk2
      · rw [getBlocks, if_pos hk2] at h2
        intro he
        exact hdisj (List.mem_map.mpr ⟨b2, h2, rfl⟩)
          (by rw [← he]; exact List.mem_map.mpr ⟨b1, getBlocks_sub h1, rfl⟩)
      · rw [getBlocks, if_neg hk2] at h2
        exact ih (List.nodup_append.mp hnd).2.1 h1 h2

/-- Within one key's list, identity determines the block. -/
theorem eq_of_bid_eq {blocks : List (K × List DataBlock)} {dk : K}
    {b1 b2 : DataBlock}
    (hnd : ((allBlocksOf blocks).map DataBlock.bid).Nodup)
    (h1 : b1 ∈ getBlocks blocks dk) (h2 : b2 ∈ getBlocks blocks dk)
    (he : b1.bid = b2.bid) : b1 = b2 :=
  List.inj_on_of_nodup_map (bidsNodup_getBlocks hnd) h1 h2 he

/-- The freshness counter is not the identity of any existing block. -/
theorem nextId_not_mem_bids {s : EngineState K} (hWF : WF s) :
    s.nextId ∉ (allBlocksOf s.blocks).map DataBlock.bid := by
  intro h
  rcases List.mem_map.mp h with ⟨b0, hb0, hbid⟩
  exact absurd hbid (Nat.ne_of_lt (hWF.bidsLt b0 hb0))

/-- Ensuring a key preserves well-formedness. -/
theorem WF_ensureKey {s : EngineState K} (hWF : WF s) (dk : K) :
    WF { s with blocks := ensureKey s.blocks dk } := by
  refine ⟨?_, ?_, ?_⟩
  · show ((allBlocksOf (ensureKey s.blocks dk)).map DataBlock.bid).Nodup
    rw [allBlocksOf_ensureKey]
    exact hWF.bidsNodup
  · intro b hb
    have hb2 : b ∈ allBlocksOf s.blocks := by
      rw [← allBlocksOf_ensureKey s.blocks dk]
      exact hb
    exact hWF.bidsLt b hb2
  · intro e he
    rcases ensureKey_mem he with h | h
    · exact hWF.startsNodup e h
    · subst h
      simp

/-- dataBlock.write never changes a block's identity or window start. -/
theorem write_bid_start (blk : DataBlock) (res : Nat × Option String)
    (a : String) (ts : Nat) :
    ((blk.write res a ts).1).bid = blk.bid ∧
    ((blk.write res a ts).1).start = blk.start := by
  obtain ⟨rows, err⟩ := res
  cases err <;> simp only [DataBlock.write] <;> split <;> simp

/-- Rewriting one block of a list leaves any projection unchanged that
the rewrite function preserves. -/
theorem map_update_list (v : List DataBlock) (bidv : Nat)
    (f : DataBlock → DataBlock) {α : Type} (proj : DataBlock → α)
    (hproj : ∀ b, proj (f b) = proj b) :
    (v.map fun b => if b.bid = bidv then f b else b).map proj = v.map proj := by
  rw [List.map_map]
  apply List.map_congr_left
  intro b hb
  by_cases h : b.bid = bidv <;> simp [h, hproj]

/-- Rewriting one block of the map leaves any preserved projection of the
set of all open blocks unchanged. -/
theorem map_allBlocksOf_updateBlock (blocks : List (K × List DataBlock))
    (dk : K) (bidv : Nat) (f : DataBlock → DataBlock) {α : Type}
    (proj : DataBlock → α) (hproj : ∀ b, proj (f b) = proj b) :
    (allBlocksOf (updateBlock blocks dk bidv f)).map proj
      = (allBlocksOf blocks).map proj := by
  induction blocks with
  | nil => rfl
  | cons e rest ih =>
    obtain ⟨k, v⟩ := e
    by_cases hk : k = dk
    · simp only [updateBlock, if_pos hk]
      rw [allBlocksOf_cons, allBlocksOf_cons, List.map_append, List.map_append]
      rw [map_update_list v bidv f proj hproj]
    · simp only [updateBlock, if_neg hk]
      rw [allBlocksOf_cons, allBlocksOf_cons, List.map_append, List.map_append, ih]

/-- Rewriting one block rewrites exactly its key's list. -/
theorem getBlocks_updateBlock (blocks : List (K × List DataBlock)) (dk dk2 : K)
    (bidv : Nat) (f : DataBlock → DataBlock) :
    getBlocks (updateBlock blocks dk bidv f) dk2 =
      if dk2 = dk then
        (getBlocks blocks dk).map (fun b => if b.bid = bidv then f b else b)
      else getBlocks blocks dk2 := by
  induction blocks with
  | nil =>
    by_cases h : dk2 = dk <;> simp [updateBlock, getBlocks, h]
  | cons e rest ih =>
    obtain ⟨k, v⟩ := e
    by_cases hk : k = dk
    · subst hk
      by_cases h2 : dk2 = k
      · subst h2
        simp [updateBlock, getBlocks]
      · have hne : ¬ k = dk2 := fun he => h2 he.symm
        rw [if_neg h2]
        simp [updateBlock, getBlocks, hne]
    · simp only [updateBlock, if_neg hk]
      by_cases h2 : k = dk2
      · have hne : ¬ dk2 = dk := fun he => hk (h2.trans he)
        rw [if_neg hne]
        simp only [getBlocks, if_pos h2]
      · simp only [getBlocks, if_neg h2, if_neg hk]
        exact ih

/-- Rewriting one block through an identity- and start-preserving
function preserves well-formedness. -/
theorem WF_updateBlock {s : EngineState K} (hWF : WF s) (dk : K) (bidv : Nat)
    (f : DataBlock → DataBlock) (hbid : ∀ b, (f b).bid = b.bid)
    (hstart : ∀ b, (f b).start = b.start) :
    WF { s with blocks := updateBlock s.blocks dk bidv f } := by
  refine ⟨?_, ?_, ?_⟩
  · show ((allBlocksOf (updateBlock s.blocks dk bidv f)).map DataBlock.bid).Nodup
    rw [map_allBlocksOf_updateBlock s.blocks dk bidv f DataBlock.bid hbid]
    exact hWF.bidsNodup
  · intro b hb
    have hmem : b.bid ∈ (allBlocksOf (updateBlock s.blocks dk bidv f)).map DataBlock.bid :=
      List.mem_map.mpr ⟨b, hb, rfl⟩
    rw [map_allBlocksOf_updateBlock s.blocks dk bidv f DataBlock.bid hbid] at hmem
    rcases List.mem_map.mp hmem with ⟨b0, hb0, he⟩
    exact he ▸ hWF.bidsLt b0 hb0
  · intro e he
    rcases updateBlock_mem he with h | h
    · exact hWF.startsNodup e h
    · rcases h with ⟨v, hv, he2⟩
      subst he2
      show ((v.map fun b => if b.bid = bidv then f b else b).map DataBlock.start).Nodup
      rw [map_update_list v bidv f DataBlock.start hstart]
      exact hWF.startsNodup (dk, v) hv

end JetCapture

namespace JetCapture

variable {P K : Type} [DecidableEq K]

/-- findBlock preserves well-formedness and returns a block that lies
under the requested key, carries the truncated timestamp as its start,
and has an identity below the freshness counter. -/
theorem findBlock_preserves (maxAge : Nat) (bufErr : Option String)
    (s s1 : EngineState K) (dk : K) (ts : Nat) (b : DataBlock) (hWF : WF s)
    (hfb : findBlock maxAge bufErr s dk ts = (s1, Except.ok b)) :
    WF s1 ∧ b ∈ getBlocks s1.blocks dk ∧ b.start = truncate ts maxAge ∧
    b.bid < s1.nextId := by
  unfold findBlock at hfb
  cases hfind : findInList (truncate ts maxAge) (getBlocks (ensureKey s.blocks dk) dk) with
  | some b0 =>
    rw [hfind] at hfb
    have hs1 : s1 = { s with blocks := ensureKey s.blocks dk } :=
      (congrArg Prod.fst hfb).symm
    have hb0 : (Except.ok b0 : Except String DataBlock) = Except.ok b :=
      congrArg Prod.snd hfb
    have hbb : b0 = b := Except.ok.inj hb0
    subst hbb
    subst hs1
    refine ⟨WF_ensureKey hWF dk, (findInList_some hfind).1, (findInList_some hfind).2, ?_⟩
    have hmem : b0 ∈ allBlocksOf s.blocks := by
      rw [← allBlocksOf_ensureKey s.blocks dk]
      exact getBlocks_sub (findInList_some hfind).1
    exact hWF.bidsLt b0 hmem
  | none =>
    rw [hfind] at hfb
    cases hbuf : bufErr with
    | some e =>
      rw [hbuf] at hfb
      exact absurd (congrArg Prod.snd hfb) (by simp)
    | none =>
      rw [hbuf] at hfb
      have hs1 : s1 = { s with
          blocks := addBlock (ensureKey s.blocks dk) dk
            { bid := s.nextId, start := truncate ts maxAge },
          nextId := s.nextId + 1 } :=
        (congrArg Prod.fst hfb).symm
      have hb0 : (Except.ok { bid := s.nextId, start := truncate ts maxAge } :
          Except String DataBlock) = Except.ok b :=
        congrArg Prod.snd hfb
      have hbb : ({ bid := s.nextId, start := truncate ts maxAge } : DataBlock) = b :=
        Except.ok.inj hb0
      subst hbb
      subst hs1
      have hens : allBlocksOf (ensureKey s.blocks dk) = allBlocksOf s.blocks :=
        allBlocksOf_ensureKey s.blocks dk
      have hperm := allBlocksOf_addBlock_perm (ensureKey s.blocks dk) dk
        { bid := s.nextId, start := truncate ts maxAge }
      refine ⟨⟨?_, ?_, ?_⟩, ?_, rfl, ?_⟩
      · show ((allBlocksOf (addBlock (ensureKey s.blocks dk) dk
          { bid := s.nextId, start := truncate ts maxAge })).map DataBlock.bid).Nodup
        rw [(hperm.map DataBlock.bid).nodup_iff]
        rw [List.map_append, hens]
        rw [List.nodup_append]
        refine ⟨hWF.bidsNodup, by simp, ?_⟩
        intro x hx hx2
        have hxe : x = s.nextId := by simpa using hx2
        subst hxe
        exact nextId_not_mem_bids hWF hx
      · intro b2 hb2
        have hb3 : b2 ∈ allBlocksOf s.blocks ++
            [({ bid := s.nextId, start := truncate ts maxAge } : DataBlock)] := by
          rw [← hens]
          exact hperm.mem_iff.mp hb2
        rcases List.mem_append.mp hb3 with h | h
        · exact Nat.lt_succ_of_lt (hWF.bidsLt b2 h)
        · have : b2 = { bid := s.nextId, start := truncate ts maxAge } := by simpa using h
          subst this
          exact Nat.lt_succ_self _
      · intro e2 he2
        rcases addBlock_mem he2 with h | h
        · rcases ensureKey_mem h with h2 | h2
          · exact hWF.startsNodup e2 h2
          · subst h2
            simp
        · subst h
          show (((getBlocks (ensureKey s.blocks dk) dk ++
            [({ bid := s.nextId, start := truncate ts maxAge } : DataBlock)]).map
              DataBlock.start)).Nodup
          rw [List.map_append, List.nodup_append]
          refine ⟨?_, by simp, ?_⟩
          · apply startsNodup_getBlocks
            intro e3 he3
            rcases ensureKey_mem he3 with h3 | h3
            · exact hWF.startsNodup e3 h3
            · subst h3
              simp
          · intro x hx hx2
            have hxe : x = truncate ts maxAge := by simpa using hx2
            subst hxe
            rcases List.mem_map.mp hx with ⟨b3, hb3, hs3⟩
            exact findInList_none hfind b3 hb3 hs3
      · show ({ bid := s.nextId, start := truncate ts maxAge } : DataBlock) ∈
          getBlocks (addBlock (ensureKey s.blocks dk) dk
            { bid := s.nextId, start := truncate ts maxAge }) dk
        rw [getBlocks_addBlock, if_pos rfl]
        simp
      · exact Nat.lt_succ_self _

end JetCapture

namespace JetCapture

variable {P K : Type} [DecidableEq K]

/-- findBlock in closed form when the search finds an open block. -/
theorem findBlock_found (maxAge : Nat) (bufErr : Option String)
    (s : EngineState K) (dk : K) (ts : Nat) (b0 : DataBlock)
    (hfind : findInList (truncate ts maxAge)
        (getBlocks (ensureKey s.blocks dk) dk) = some b0) :
    findBlock maxAge bufErr s dk ts =
      ({ s with blocks := ensureKey s.blocks dk }, Except.ok b0) := by
  unfold findBlock
  rw [hfind]

/-- findBlock in closed form when the search fails and the buffer is
created successfully: a fresh block is appended under the key. -/
theorem findBlock_created (maxAge : Nat) (s : EngineState K) (dk : K) (ts : Nat)
    (hfind : findInList (truncate ts maxAge)
        (getBlocks (ensureKey s.blocks dk) dk) = none) :
    findBlock maxAge none s dk ts =
      ({ s with
          blocks := addBlock (ensureKey s.blocks dk) dk
            { bid := s.nextId, start := truncate ts maxAge },
          nextId := s.nextId + 1 },
       Except.ok { bid := s.nextId, start := truncate ts maxAge }) := by
  unfold findBlock
  rw [hfind]

/-- Routing decision of a later findBlock call against a block already
present in a well-formed state: the call yields the block with the
remembered identity exactly when it is made for the same destination key
and the same window start. -/
theorem findBlock_second (maxAge : Nat) (t s2 : EngineState K) (dk1 dk2 : K)
    (st1 ts2 : Nat) (bidv : Nat) (b1m b2 : DataBlock)
    (hWFt : WF t)
    (hmem : b1m ∈ getBlocks t.blocks dk1)
    (hbid1 : b1m.bid = bidv) (hstart1 : b1m.start = st1)
    (hlt : bidv < t.nextId)
    (h2 : findBlock maxAge none t dk2 ts2 = (s2, Except.ok b2)) :
    (bidv = b2.bid ↔ (dk1 = dk2 ∧ st1 = truncate ts2 maxAge)) := by
  cases hfind2 : findInList (truncate ts2 maxAge)
      (getBlocks (ensureKey t.blocks dk2) dk2) with
  | none =>
    have hfb := findBlock_created maxAge t dk2 ts2 hfind2
    have heq := h2.symm.trans hfb
    have hb2 : b2 = { bid := t.nextId, start := truncate ts2 maxAge } :=
      Except.ok.inj (congrArg Prod.snd heq)
    constructor
    · intro hbid
      rw [hb2] at hbid
      exact absurd hbid (Nat.ne_of_lt hlt)
    · rintro ⟨hdk, hst⟩
      subst hdk
      have hmem2 : b1m ∈ getBlocks (ensureKey t.blocks dk1) dk1 := by
        rw [getBlocks_ensureKey]
        exact hmem
      exact absurd (hstart1.trans hst) (findInList_none hfind2 b1m hmem2)
  | some b0 =>
    have hfb := findBlock_found maxAge none t dk2 ts2 b0 hfind2
    have heq := h2.symm.trans hfb
    have hb2 : b2 = b0 := Except.ok.inj (congrArg Prod.snd heq)
    have hb0mem : b0 ∈ getBlocks t.blocks dk2 := by
      rw [← getBlocks_ensureKey t.blocks dk2 dk2]
      exact (findInList_some hfind2).1
    have hb0start : b0.start = truncate ts2 maxAge := (findInList_some hfind2).2
    constructor
    · intro hbid
      by_cases hdk : dk1 = dk2
      · subst hdk
        have hbideq : b1m.bid = b0.bid := by
          rw [hbid1, hbid, hb2]
        have hbb : b1m = b0 := eq_of_bid_eq hWFt.bidsNodup hmem hb0mem hbideq
        refine ⟨rfl, ?_⟩
        rw [← hstart1, hbb, hb0start]
      · have hne := bid_ne_of_keys_ne hWFt.bidsNodup hdk hmem hb0mem
        rw [hbid1, hbid, hb2] at hne
        exact absurd rfl hne
    · rintro ⟨hdk, hst⟩
      subst hdk
      have hnd : ((getBlocks (ensureKey t.blocks dk1) dk1).map DataBlock.start).Nodup := by
        rw [getBlocks_ensureKey]
        exact startsNodup_getBlocks hWFt.startsNodup
      have hmem2 : b1m ∈ getBlocks (ensureKey t.blocks dk1) dk1 := by
        rw [getBlocks_ensureKey]
        exact hmem
      have hfind1m : findInList (truncate ts2 maxAge)
          (getBlocks (ensureKey t.blocks dk1) dk1) = some b1m :=
        findInList_of_mem hnd hmem2 (hstart1.trans hst)
      have hbb : b0 = b1m := by
        have := hfind1m.symm.trans hfind2
        exact (Option.some.inj this).symm
      rw [hb2, hbb, hbid1]

end JetCapture

namespace JetCapture

variable {P K : Type} [DecidableEq K]

/-- Claim C3: a successfully decoded message with broker timestamp ts1
and destination key dk1 is routed to a block whose start is ts1 truncated
to MaxAge, held in the map under dk1; the routing either reuses the
existing open block with that start or appends a freshly created one; and
— after the first message has been written into its block — a second
message is routed to the same block (same identity) exactly when it
carries the same destination key and the same truncated timestamp. -/
theorem findBlock_routing_and_grouping (maxAge : Nat) (s s1 s2 : EngineState K)
    (dk1 dk2 : K) (ts1 ts2 tsw1 rows1 : Nat) (err1 : Option String) (tok1 : String)
    (b1 b2 : DataBlock) (hWF : WF s)
    (h1 : findBlock maxAge none s dk1 ts1 = (s1, Except.ok b1))
    (h2 : findBlock maxAge none
        { s1 with
            blocks := updateBlock s1.blocks dk1 b1.bid
              (fun blk => (blk.write (rows1, err1) tok1 tsw1).1) }
        dk2 ts2 = (s2, Except.ok b2)) :
    b1.start = truncate ts1 maxAge ∧
    b2.start = truncate ts2 maxAge ∧
    b1 ∈ getBlocks s1.blocks dk1 ∧
    b2 ∈ getBlocks s2.blocks dk2 ∧
    ((findInList (truncate ts1 maxAge) (getBlocks (ensureKey s.blocks dk1) dk1)
        = some b1 ∧ s1 = { s with blocks := ensureKey s.blocks dk1 }) ∨
      (b1 = { bid := s.nextId, start := truncate ts1 maxAge } ∧
        s1 = { s with
            blocks := addBlock (ensureKey s.blocks dk1) dk1
              { bid := s.nextId, start := truncate ts1 maxAge },
            nextId := s.nextId + 1 })) ∧
    (b1.bid = b2.bid ↔ (dk1 = dk2 ∧ truncate ts1 maxAge = truncate ts2 maxAge)) := by
  obtain ⟨hWF1, hmem1, hstart1, hlt1⟩ :=
    findBlock_preserves maxAge none s s1 dk1 ts1 b1 hWF h1
  have hWFmid := WF_updateBlock hWF1 dk1 b1.bid
    (fun blk => (blk.write (rows1, err1) tok1 tsw1).1)
    (fun b => (write_bid_start b (rows1, err1) tok1 tsw1).1)
    (fun b => (write_bid_start b (rows1, err1) tok1 tsw1).2)
  obtain ⟨hWF2, hmem2, hstart2, hlt2⟩ :=
    findBlock_preserves maxAge none _ s2 dk2 ts2 b2 hWFmid h2
  have hmidget : getBlocks ({ s1 with
      blocks := updateBlock s1.blocks dk1 b1.bid
        (fun blk => (blk.write (rows1, err1) tok1 tsw1).1) } : EngineState K).blocks dk1
      = (getBlocks s1.blocks dk1).map
          (fun b => if b.bid = b1.bid then (b.write (rows1, err1) tok1 tsw1).1 else b) := by
    show getBlocks (updateBlock s1.blocks dk1 b1.bid
      (fun blk => (blk.write (rows1, err1) tok1 tsw1).1)) dk1 = _
    rw [getBlocks_updateBlock, if_pos rfl]
  have hb1mid : (b1.write (rows1, err1) tok1 tsw1).1 ∈
      getBlocks ({ s1 with
        blocks := updateBlock s1.blocks dk1 b1.bid
          (fun blk => (blk.write (rows1, err1) tok1 tsw1).1) } : EngineState K).blocks dk1 := by
    rw [hmidget]
    refine List.mem_map.mpr ⟨b1, hmem1, ?_⟩
    simp
  have hiff := findBlock_second maxAge _ s2 dk1 dk2 (truncate ts1 maxAge) ts2 b1.bid
    ((b1.write (rows1, err1) tok1 tsw1).1) b2 hWFmid hb1mid
    (write_bid_start b1 (rows1, err1) tok1 tsw1).1
    ((write_bid_start b1 (rows1, err1) tok1 tsw1).2.trans hstart1)
    hlt1 h2
  have hE : (findInList (truncate ts1 maxAge) (getBlocks (ensureKey s.blocks dk1) dk1)
        = some b1 ∧ s1 = { s with blocks := ensureKey s.blocks dk1 }) ∨
      (b1 = { bid := s.nextId, start := truncate ts1 maxAge } ∧
        s1 = { s with
            blocks := addBlock (ensureKey s.blocks dk1) dk1
              { bid := s.nextId, start := truncate ts1 maxAge },
            nextId := s.nextId + 1 }) := by
    cases hfind1 : findInList (truncate ts1 maxAge)
        (getBlocks (ensureKey s.blocks dk1) dk1) with
    | some b0 =>
      have hfb := findBlock_found maxAge none s dk1 ts1 b0 hfind1
      have heq := h1.symm.trans hfb
      have hb : b1 = b0 := Except.ok.inj (congrArg Prod.snd heq)
      left
      refine ⟨?_, congrArg Prod.fst heq⟩
      rw [hb]
    | none =>
      have hfb := findBlock_created maxAge s dk1 ts1 hfind1
      have heq := h1.symm.trans hfb
      right
      exact ⟨Except.ok.inj (congrArg Prod.snd heq), congrArg Prod.fst heq⟩
  exact ⟨hstart1, hstart2, hmem1, hmem2, hE, hiff⟩

end JetCapture

namespace JetCapture

/-- Concrete first block of the claim C3 witness run. -/
def c3Block1 : DataBlock := { bid := 0, start := 20 }

/-- Concrete first block of the claim C3 witness run after the first
message has been written into it. -/
def c3Block2 : DataBlock :=
  { bid := 0, start := 20, messageCount := 1, rowCount := 1, closed := false,
    acks := ["t1"], newestMessage := 25 }

/-- Engine state of the claim C3 witness run after routing the first
message. -/
def c3State1 : EngineState Nat := { blocks := [(0, [c3Block1])], nextId := 1 }

/-- Engine state of the claim C3 witness run after routing the second
message. -/
def c3State2 : EngineState Nat := { blocks := [(0, [c3Block2])], nextId := 1 }

/-- Claim C3 witness: on an empty engine with MaxAge 10, a message at
time 25 under key 0 creates the block starting at 20; after writing it, a
second message at time 27 under key 0 is routed to the very same block,
and the truncated timestamps agree. -/
theorem findBlock_routing_and_grouping_witness :
    c3Block1.start = truncate 25 10 ∧
    (c3Block1.bid = c3Block2.bid ↔
      ((0 : Nat) = 0 ∧ truncate 25 10 = truncate 27 10)) := by
  have H := findBlock_routing_and_grouping (K := Nat) 10 {} c3State1 c3State2
    0 0 25 27 25 1 none "t1" c3Block1 c3Block2
    ⟨by decide, by decide, by decide⟩ rfl rfl
  exact ⟨H.1, H.2.2.2.2.2⟩

end JetCapture
